import Mathlib

/-!
Shallow embedding of `src/data/calculate_positions.py` (force-directed 3D
layout, Fruchterman–Reingold with weighted attraction), together with proofs
about it.

Modelling conventions:
* numpy float arithmetic is modelled over the real numbers `ℝ`;
* one row of the `(n, 3)` numpy position array is a vector `V3 := Fin 3 → ℝ`,
  and the whole array is a function `ℕ → V3` (indices `≥ n` are never touched);
* `np.random.randn(n, 3) * 5` (the only source of randomness) is modelled by
  passing the initial position array as an explicit argument;
* a Python `ZeroDivisionError` (raised by `area / n` when `n == 0`) is
  modelled by returning `none`;
* `nodes` is modelled as the list of its `'id'` fields (the algorithm reads
  no other field); an edge dict is the structure `Edge`.
-/

noncomputable section

namespace CalcPositions

/-- One row of the position / displacement array: a 3D vector. -/
abbrev V3 := Fin 3 → ℝ

/-- `np.linalg.norm` of a 3D row vector. -/
def vnorm (v : V3) : ℝ := Real.sqrt (v 0 ^ 2 + v 1 ^ 2 + v 2 ^ 2)

/-- Euclidean dot product of two 3D vectors (used to state angle
preservation). -/
def vdot (u v : V3) : ℝ := u 0 * v 0 + u 1 * v 1 + u 2 * v 2

/-- An edge dict: `{'source': ..., 'target': ..., 'weight': ...}`. -/
structure Edge where
  source : String
  target : String
  weight : ℝ

/-- `id_to_idx = {node['id']: i for i, node in enumerate(nodes)}` — a dict
built left to right, later entries overwriting earlier ones; lookup with
`.get` returns `None` for absent keys. -/
def id_to_idx (ids : List String) : String → Option ℕ :=
  ids.enum.foldl (fun m p => fun x => if x = p.2 then some p.1 else m x)
    (fun _ => none)

/-- The edge-resolution loop: for each edge look up both endpoint ids and
retain `(source_idx, target_idx, weight)` only when both resolve (the code
keeps the parallel lists `edge_pairs` / `edge_weights`, here kept as one
list of triples). -/
def resolve_edges (idx : String → Option ℕ) (edges : List Edge) :
    List (ℕ × ℕ × ℝ) :=
  edges.filterMap fun e =>
    match idx e.source, idx e.target with
    | some i, some j => some (i, j, e.weight)
    | _, _ => none

/-- `max(edge_weights) if edge_weights else 1`. -/
def max_weight (ws : List ℝ) : ℝ :=
  match ws with
  | [] => 1
  | w :: t => t.foldl max w

/-- `edge_weights = [w / max_weight for w in edge_weights]`, then
`zip(edge_pairs, edge_weights)`: the resolved triples with weights
normalized by the maximum retained weight. -/
def sim_edges (ids : List String) (edges : List Edge) : List (ℕ × ℕ × ℝ) :=
  let resolved := resolve_edges (id_to_idx ids) edges
  let mw := max_weight (resolved.map fun e => e.2.2)
  resolved.map fun e => (e.1, e.2.1, e.2.2 / mw)

/-- `displacements[i] += f; displacements[j] -= f` (the second statement
reads the array as left by the first). -/
def apply_pair_force (disp : ℕ → V3) (i j : ℕ) (f : V3) : ℕ → V3 :=
  let d1 := Function.update disp i (disp i + f)
  Function.update d1 j (d1 j - f)

/-- Body of the repulsion double loop for one pair `(i, j)`:
`delta = positions[i] - positions[j]`, `distance = norm(delta)`; if
`distance > 0`, `force = k*k/distance`, `direction = delta/distance`,
accumulate `±direction*force`. -/
def rep_step (k : ℝ) (pos : ℕ → V3) (disp : ℕ → V3) (i j : ℕ) : ℕ → V3 :=
  let delta := pos i - pos j
  let distance := vnorm delta
  if distance > 0 then
    apply_pair_force disp i j ((k * k / distance) • (distance⁻¹ • delta))
  else disp

/-- Body of the attraction loop for one resolved edge `(i, j, weight)`:
`delta = positions[j] - positions[i]`; if `distance > 0`,
`force = (distance*distance/k) * (0.5 + 0.5*weight)`,
`direction = delta/distance`, accumulate `±direction*force`. -/
def att_step (k : ℝ) (pos : ℕ → V3) (disp : ℕ → V3) (e : ℕ × ℕ × ℝ) :
    ℕ → V3 :=
  let delta := pos e.2.1 - pos e.1
  let distance := vnorm delta
  if distance > 0 then
    apply_pair_force disp e.1 e.2.1
      ((distance * distance / k * (0.5 + 0.5 * e.2.2)) • (distance⁻¹ • delta))
  else disp

/-- The index pairs visited by `for i in range(n): for j in range(i+1, n)`. -/
def pair_list (n : ℕ) : List (ℕ × ℕ) :=
  (List.range n).flatMap fun i =>
    (List.range' (i + 1) (n - (i + 1))).map fun j => (i, j)

/-- One iteration's force accumulation: `displacements = np.zeros((n, 3))`,
then the repulsion double loop, then the attraction loop. -/
def compute_displacements (k : ℝ) (pos : ℕ → V3) (n : ℕ)
    (edges : List (ℕ × ℕ × ℝ)) : ℕ → V3 :=
  let rep := (pair_list n).foldl (fun d p => rep_step k pos d p.1 p.2)
    (fun _ => 0)
  edges.foldl (fun d e => att_step k pos d e) rep

/-- Body of the displacement-application loop for node `i`:
`displacement_length = norm(displacements[i])`; if positive,
`positions[i] += (displacements[i]/displacement_length) *
min(displacement_length, temperature)`. -/
def move_node (temp : ℝ) (disp : ℕ → V3) (pos : ℕ → V3) (i : ℕ) : ℕ → V3 :=
  let len := vnorm (disp i)
  if len > 0 then
    Function.update pos i (pos i + min len temp • (len⁻¹ • disp i))
  else pos

/-- `for i in range(n): ...` displacement application. -/
def apply_displacements (n : ℕ) (temp : ℝ) (disp pos : ℕ → V3) : ℕ → V3 :=
  (List.range n).foldl (move_node temp disp) pos

/-- One full iteration of the simulation loop (forces, then moves). -/
def step_once (k temp : ℝ) (n : ℕ) (edges : List (ℕ × ℕ × ℝ))
    (pos : ℕ → V3) : ℕ → V3 :=
  apply_displacements n temp (compute_displacements k pos n edges) pos

/-- `for iteration in range(iterations)` with state
`(positions, temperature)`; each pass runs one step and then cools
`temperature *= 0.98`. -/
def simulate (k : ℝ) (n : ℕ) (edges : List (ℕ × ℕ × ℝ)) :
    ℕ → (ℕ → V3) × ℝ → (ℕ → V3) × ℝ
  | 0, s => s
  | t + 1, s => simulate k n edges t (step_once k s.2 n edges s.1, s.2 * 0.98)

/-- `force_directed_3d(nodes, edges, iterations)`.  The initial random
positions are the explicit argument `initPos`; `iterations` is a Python
`int` (`range` of a non-positive count is empty); the result is `none`
exactly when `area / n` raises `ZeroDivisionError` (`n == 0`).  `area`,
the initial temperature and the cooling factor are the hard-coded
constants `100.0`, `10.0` and `0.98`. -/
def force_directed_3d (ids : List String) (edges : List Edge)
    (iterations : ℤ) (initPos : ℕ → V3) : Option (ℕ → V3) :=
  let n := ids.length
  let epairs := sim_edges ids edges
  if n = 0 then none
  else
    let k := Real.sqrt (100.0 / n)
    some (simulate k n epairs iterations.toNat (initPos, 10.0)).1

/-- All `3 * n` absolute coordinates of the position array
(`np.abs(positions)` flattened). -/
def abs_coords (pos : ℕ → V3) (n : ℕ) : List ℝ :=
  (List.range n).flatMap fun i => [|pos i 0|, |pos i 1|, |pos i 2|]

/-- `max_coord = np.max(np.abs(positions))`.  Every listed entry is an
absolute value, hence nonnegative, so folding `max` from `0` gives the
same value `np.max` returns on a nonempty array (the code never reaches
this line with an empty array: `force_directed_3d` raises first). -/
def max_coord (pos : ℕ → V3) (n : ℕ) : ℝ :=
  (abs_coords pos n).foldr max 0

/-- `normalize_positions(positions, target_range)`: scale every coordinate
by `target_range / max_coord` when `max_coord > 0`, else return the
positions unchanged. -/
def normalize_positions (pos : ℕ → V3) (n : ℕ) (target_range : ℝ) :
    ℕ → V3 :=
  let mc := max_coord pos n
  if mc > 0 then fun i => (target_range / mc) • pos i else pos

/-! ### Basic facts about the vector norm -/

lemma vnorm_nonneg (v : V3) : 0 ≤ vnorm v := Real.sqrt_nonneg _

lemma vnorm_zero : vnorm (0 : V3) = 0 := by
  unfold vnorm
  norm_num

lemma vnorm_smul (c : ℝ) (v : V3) : vnorm (c • v) = |c| * vnorm v := by
  unfold vnorm
  simp only [Pi.smul_apply, smul_eq_mul]
  rw [show (c * v 0) ^ 2 + (c * v 1) ^ 2 + (c * v 2) ^ 2
        = c ^ 2 * (v 0 ^ 2 + v 1 ^ 2 + v 2 ^ 2) by ring,
    Real.sqrt_mul (sq_nonneg c), Real.sqrt_sq_eq_abs]

/-! ### C1: the accumulated displacement field equals the sum of the forces
specified by §4.2 steps 1–2 of the spec. -/

/-- The repulsive contribution the spec assigns to node `m` from the
unordered pair `(i, j)`: magnitude `k² / distance` directed along
`(position[i] - position[j]) / distance`, added to `i`'s displacement and
subtracted from `j`'s; nothing when `distance == 0`. -/
def spec_rep_contrib (k : ℝ) (pos : ℕ → V3) (i j m : ℕ) : V3 :=
  if vnorm (pos i - pos j) > 0 then
    (if m = i then
        (k ^ 2 / vnorm (pos i - pos j)) •
          ((vnorm (pos i - pos j))⁻¹ • (pos i - pos j))
      else 0)
      - (if m = j then
        (k ^ 2 / vnorm (pos i - pos j)) •
          ((vnorm (pos i - pos j))⁻¹ • (pos i - pos j))
      else 0)
  else 0

/-- The attractive contribution the spec assigns to node `m` from the
retained edge `e = (i, j, normalized_weight)`: magnitude
`(distance² / k) * (0.5 + 0.5 * normalized_weight)` directed from `i`
toward `j`, added to `i`'s displacement and subtracted from `j`'s; nothing
when `distance == 0`. -/
def spec_att_contrib (k : ℝ) (pos : ℕ → V3) (e : ℕ × ℕ × ℝ) (m : ℕ) : V3 :=
  if vnorm (pos e.2.1 - pos e.1) > 0 then
    (if m = e.1 then
        ((vnorm (pos e.2.1 - pos e.1)) ^ 2 / k * (0.5 + 0.5 * e.2.2)) •
          ((vnorm (pos e.2.1 - pos e.1))⁻¹ • (pos e.2.1 - pos e.1))
      else 0)
      - (if m = e.2.1 then
        ((vnorm (pos e.2.1 - pos e.1)) ^ 2 / k * (0.5 + 0.5 * e.2.2)) •
          ((vnorm (pos e.2.1 - pos e.1))⁻¹ • (pos e.2.1 - pos e.1))
      else 0)
  else 0

lemma apply_pair_force_eq (disp : ℕ → V3) (i j : ℕ) (f : V3) :
    apply_pair_force disp i j f
      = fun m => disp m + ((if m = i then f else 0) - (if m = j then f else 0)) := by
  funext m
  simp only [apply_pair_force, Function.update_apply]
  by_cases hmj : m = j
  · subst hmj
    by_cases hmi : m = i
    · subst hmi; simp
    · simp [hmi, sub_eq_add_neg]
  · by_cases hmi : m = i
    · subst hmi; simp [hmj, sub_eq_add_neg]
    · simp [hmi, hmj, sub_eq_add_neg]

lemma rep_step_eq (k : ℝ) (pos : ℕ → V3) (disp : ℕ → V3) (i j : ℕ) :
    rep_step k pos disp i j = fun m => disp m + spec_rep_contrib k pos i j m := by
  unfold rep_step spec_rep_contrib
  by_cases h : vnorm (pos i - pos j) > 0
  · simp only [if_pos h, apply_pair_force_eq, pow_two]
  · simp only [if_neg h]
    funext m
    simp

lemma att_step_eq (k : ℝ) (pos : ℕ → V3) (disp : ℕ → V3) (e : ℕ × ℕ × ℝ) :
    att_step k pos disp e = fun m => disp m + spec_att_contrib k pos e m := by
  unfold att_step spec_att_contrib
  by_cases h : vnorm (pos e.2.1 - pos e.1) > 0
  · simp only [if_pos h, apply_pair_force_eq, pow_two]
  · simp only [if_neg h]
    funext m
    simp

/-- The repulsion double loop accumulates the pointwise sum of the per-pair
contributions. -/
lemma foldl_rep_pointwise (k : ℝ) (pos : ℕ → V3) (l : List (ℕ × ℕ)) :
    ∀ (d : ℕ → V3) (m : ℕ),
      (l.foldl (fun d p => rep_step k pos d p.1 p.2) d) m
        = d m + (l.map fun p => spec_rep_contrib k pos p.1 p.2 m).sum := by
  induction l with
  | nil => intro d m; simp
  | cons a t ih =>
    intro d m
    simp only [List.foldl_cons, List.map_cons, List.sum_cons]
    rw [ih (rep_step k pos d a.1 a.2) m]
    simp only [rep_step_eq]
    rw [add_assoc]

/-- The attraction loop accumulates the pointwise sum of the per-edge
contributions. -/
lemma foldl_att_pointwise (k : ℝ) (pos : ℕ → V3) (l : List (ℕ × ℕ × ℝ)) :
    ∀ (d : ℕ → V3) (m : ℕ),
      (l.foldl (fun d e => att_step k pos d e) d) m
        = d m + (l.map fun e => spec_att_contrib k pos e m).sum := by
  induction l with
  | nil => intro d m; simp
  | cons a t ih =>
    intro d m
    simp only [List.foldl_cons, List.map_cons, List.sum_cons]
    rw [ih (att_step k pos d a) m]
    simp only [att_step_eq]
    rw [add_assoc]

lemma sum_map_flatMap {α β : Type} (l : List α) (f : α → List β) (g : β → V3) :
    ((l.flatMap f).map g).sum = (l.map fun a => ((f a).map g).sum).sum := by
  induction l with
  | nil => simp
  | cons a t ih => simp [ih]

lemma sum_map_range (f : ℕ → V3) (n : ℕ) :
    ((List.range n).map f).sum = ∑ i ∈ Finset.range n, f i := by
  induction n with
  | zero => simp
  | succ n ih =>
    rw [List.range_succ, Finset.sum_range_succ, List.map_append,
      List.sum_append, ih]
    simp

lemma sum_map_range' (F : ℕ → V3) (s len : ℕ) :
    ((List.range' s len).map F).sum = ∑ j ∈ Finset.Ico s (s + len), F j := by
  induction len generalizing s with
  | zero => simp
  | succ n ih =>
    rw [List.range'_succ]
    simp only [List.map_cons, List.sum_cons]
    rw [ih (s + 1),
      Finset.sum_eq_sum_Ico_succ_bot (show s < s + (n + 1) by omega),
      show s + 1 + n = s + (n + 1) by omega]

lemma sum_pair_list (n : ℕ) (F : ℕ → ℕ → V3) :
    ((pair_list n).map fun p => F p.1 p.2).sum
      = ∑ i ∈ Finset.range n, ∑ j ∈ Finset.Ico (i + 1) n, F i j := by
  unfold pair_list
  rw [sum_map_flatMap, sum_map_range]
  refine Finset.sum_congr rfl fun i hi => ?_
  rw [List.map_map,
    show ((fun p : ℕ × ℕ => F p.1 p.2) ∘ fun j => (i, j)) = fun j => F i j
      from rfl,
    sum_map_range' (F i) (i + 1) (n - (i + 1)),
    show i + 1 + (n - (i + 1)) = n by
      have := Finset.mem_range.mp hi; omega]

lemma compute_displacements_eq (k : ℝ) (pos : ℕ → V3) (n : ℕ)
    (edges : List (ℕ × ℕ × ℝ)) (m : ℕ) :
    compute_displacements k pos n edges m
      = ((pair_list n).map fun p => spec_rep_contrib k pos p.1 p.2 m).sum
        + (edges.map fun e => spec_att_contrib k pos e m).sum := by
  unfold compute_displacements
  rw [foldl_att_pointwise, foldl_rep_pointwise]
  simp

/-- C1: in every iteration step, the accumulated displacement field is
exactly the sum of the specified forces: for every unordered pair of
distinct node indices `i < j < n` the repulsive contribution of magnitude
`k²/distance` along `(position[i]-position[j])/distance` (added to `i`,
subtracted from `j`, nothing at zero distance), plus, for every retained
edge `(i, j, normalized_weight)`, the attractive contribution of magnitude
`(distance²/k)·(0.5+0.5·normalized_weight)` directed from `i` toward `j`
(added to `i`, subtracted from `j`, nothing at zero distance). -/
theorem displacement_is_sum_of_forces (k : ℝ) (pos : ℕ → V3) (n : ℕ)
    (edges : List (ℕ × ℕ × ℝ)) :
    compute_displacements k pos n edges
      = fun m =>
        (∑ i ∈ Finset.range n, ∑ j ∈ Finset.Ico (i + 1) n,
          spec_rep_contrib k pos i j m)
        + (edges.map fun e => spec_att_contrib k pos e m).sum := by
  funext m
  rw [compute_displacements_eq,
    sum_pair_list n (fun i j => spec_rep_contrib k pos i j m)]

/-! ### C2: normalization -/

lemma fin3_cases (ax : Fin 3) : ax = 0 ∨ ax = 1 ∨ ax = 2 := by
  fin_cases ax <;> simp

lemma le_foldr_max {l : List ℝ} {x : ℝ} (hx : x ∈ l) : x ≤ l.foldr max 0 := by
  induction l with
  | nil => cases hx
  | cons a t ih =>
    rcases List.mem_cons.mp hx with h | h
    · subst h; exact le_max_left _ _
    · exact le_trans (ih h) (le_max_right _ _)

lemma foldr_max_mem (l : List ℝ) : l.foldr max 0 = 0 ∨ l.foldr max 0 ∈ l := by
  induction l with
  | nil => exact Or.inl rfl
  | cons a t ih =>
    simp only [List.foldr_cons]
    rcases le_total a (t.foldr max 0) with h | h
    · rw [max_eq_right h]
      rcases ih with h0 | hmem
      · exact Or.inl h0
      · exact Or.inr (List.mem_cons_of_mem _ hmem)
    · rw [max_eq_left h]
      exact Or.inr (List.mem_cons_self _ _)

lemma mem_abs_coords {pos : ℕ → V3} {n : ℕ} {x : ℝ} :
    x ∈ abs_coords pos n ↔ ∃ i, i < n ∧ ∃ ax : Fin 3, x = |pos i ax| := by
  unfold abs_coords
  simp only [List.mem_flatMap, List.mem_range, List.mem_cons,
    List.mem_singleton, List.not_mem_nil, or_false]
  constructor
  · rintro ⟨i, hi, h0 | h1 | h2⟩
    · exact ⟨i, hi, 0, h0⟩
    · exact ⟨i, hi, 1, h1⟩
    · exact ⟨i, hi, 2, h2⟩
  · rintro ⟨i, hi, ax, rfl⟩
    rcases fin3_cases ax with rfl | rfl | rfl
    · exact ⟨i, hi, Or.inl rfl⟩
    · exact ⟨i, hi, Or.inr (Or.inl rfl)⟩
    · exact ⟨i, hi, Or.inr (Or.inr rfl)⟩

lemma abs_coord_le_max_coord {pos : ℕ → V3} {n i : ℕ} (hi : i < n)
    (ax : Fin 3) : |pos i ax| ≤ max_coord pos n :=
  le_foldr_max (mem_abs_coords.mpr ⟨i, hi, ax, rfl⟩)

lemma vdot_smul_smul (c : ℝ) (u v : V3) :
    vdot (c • u) (c • v) = c ^ 2 * vdot u v := by
  unfold vdot
  simp only [Pi.smul_apply, smul_eq_mul]
  ring

/-- C2: when `max_coord > 0`, normalization multiplies every coordinate of
every node by the single factor `R / max_coord`; afterwards every coordinate
of every node lies in `[-R, R]` and some coordinate equals `+R` or `-R`;
when `max_coord = 0` the positions are returned unchanged; the rescaling is
uniform, scaling all pairwise distances by one positive factor and leaving
all angle cosines unchanged. -/
theorem normalize_positions_spec (pos : ℕ → V3) (n : ℕ) (R : ℝ)
    (hR : 0 < R) :
    (0 < max_coord pos n →
      (∀ i, normalize_positions pos n R i = (R / max_coord pos n) • pos i)
      ∧ (∀ i, i < n → ∀ ax : Fin 3,
          -R ≤ normalize_positions pos n R i ax
            ∧ normalize_positions pos n R i ax ≤ R)
      ∧ (∃ i, i < n ∧ ∃ ax : Fin 3,
          normalize_positions pos n R i ax = R
            ∨ normalize_positions pos n R i ax = -R)
      ∧ (∀ i j,
          vnorm (normalize_positions pos n R i - normalize_positions pos n R j)
            = (R / max_coord pos n) * vnorm (pos i - pos j))
      ∧ (∀ i j a b,
          vdot (normalize_positions pos n R i - normalize_positions pos n R j)
              (normalize_positions pos n R a - normalize_positions pos n R b)
            / (vnorm (normalize_positions pos n R i - normalize_positions pos n R j)
              * vnorm (normalize_positions pos n R a - normalize_positions pos n R b))
          = vdot (pos i - pos j) (pos a - pos b)
            / (vnorm (pos i - pos j) * vnorm (pos a - pos b))))
    ∧ (max_coord pos n = 0 → normalize_positions pos n R = pos) := by
  constructor
  · intro hmc
    have hscale : normalize_positions pos n R
        = fun i => (R / max_coord pos n) • pos i := by
      unfold normalize_positions
      rw [if_pos hmc]
    have hc : 0 < R / max_coord pos n := div_pos hR hmc
    refine ⟨fun i => by rw [hscale], ?_, ?_, ?_, ?_⟩
    · intro i hi ax
      have h1 : |normalize_positions pos n R i ax| ≤ R := by
        simp only [hscale, Pi.smul_apply, smul_eq_mul, abs_mul,
          abs_of_pos hc]
        calc (R / max_coord pos n) * |pos i ax|
            ≤ (R / max_coord pos n) * max_coord pos n :=
              mul_le_mul_of_nonneg_left (abs_coord_le_max_coord hi ax)
                (le_of_lt hc)
          _ = R := div_mul_cancel₀ R (ne_of_gt hmc)
      exact abs_le.mp h1
    · have hmem : max_coord pos n ∈ abs_coords pos n := by
        rcases foldr_max_mem (abs_coords pos n) with h0 | h
        · exact absurd h0 (ne_of_gt hmc)
        · exact h
      rcases mem_abs_coords.mp hmem with ⟨i, hi, ax, hax⟩
      refine ⟨i, hi, ax, ?_⟩
      have habs : |normalize_positions pos n R i ax| = R := by
        simp only [hscale, Pi.smul_apply, smul_eq_mul, abs_mul,
          abs_of_pos hc, ← hax]
        exact div_mul_cancel₀ R (ne_of_gt hmc)
      exact (abs_eq (le_of_lt hR)).mp habs
    · intro i j
      simp only [hscale, ← smul_sub, vnorm_smul, abs_of_pos hc]
    · intro i j a b
      simp only [hscale, ← smul_sub, vnorm_smul, abs_of_pos hc,
        vdot_smul_smul]
      rw [show R / max_coord pos n * vnorm (pos i - pos j)
            * (R / max_coord pos n * vnorm (pos a - pos b))
          = (R / max_coord pos n) ^ 2
            * (vnorm (pos i - pos j) * vnorm (pos a - pos b)) by ring,
        mul_div_mul_left _ _ (pow_ne_zero 2 (ne_of_gt hc))]
  · intro hmc
    unfold normalize_positions
    rw [if_neg (by simp [hmc])]

/-- Witness for `normalize_positions_spec`: its hypothesis `0 < R` holds at
the concrete half-range `15`. -/
theorem normalize_positions_spec_witness :
    (0 : ℝ) < 15
      ∧ (max_coord (fun _ => (0 : V3)) 2 = 0 →
          normalize_positions (fun _ => (0 : V3)) 2 15 = fun _ => 0) :=
  ⟨by norm_num, (normalize_positions_spec (fun _ => 0) 2 15 (by norm_num)).2⟩

/-! ### C3: displacement application and cooling -/

lemma move_node_apply (temp : ℝ) (disp pos : ℕ → V3) (i m : ℕ) :
    move_node temp disp pos i m
      = if m = i ∧ 0 < vnorm (disp i)
        then pos m + min (vnorm (disp i)) temp • ((vnorm (disp i))⁻¹ • disp i)
        else pos m := by
  unfold move_node
  by_cases h : vnorm (disp i) > 0
  · rw [if_pos h, Function.update_apply]
    by_cases hm : m = i
    · subst hm; simp [h]
    · simp [hm]
  · rw [if_neg h]
    simp [h]

lemma foldl_move_apply (temp : ℝ) (disp : ℕ → V3) :
    ∀ (l : List ℕ), l.Nodup → ∀ (pos : ℕ → V3) (m : ℕ),
      (l.foldl (move_node temp disp) pos) m
        = if m ∈ l ∧ 0 < vnorm (disp m)
          then pos m + min (vnorm (disp m)) temp • ((vnorm (disp m))⁻¹ • disp m)
          else pos m := by
  intro l
  induction l with
  | nil => intro _ pos m; simp
  | cons a t ih =>
    intro hnd pos m
    simp only [List.foldl_cons]
    rw [ih (List.nodup_cons.mp hnd).2 (move_node temp disp pos a) m,
      move_node_apply]
    by_cases hmt : m ∈ t
    · have hma : m ≠ a := fun h => (List.nodup_cons.mp hnd).1 (h ▸ hmt)
      simp [hmt, hma]
    · by_cases hma : m = a
      · subst hma
        simp [hmt]
      · simp [hmt, hma]

lemma apply_displacements_apply (n : ℕ) (temp : ℝ) (disp pos : ℕ → V3)
    (m : ℕ) :
    apply_displacements n temp disp pos m
      = if m < n ∧ 0 < vnorm (disp m)
        then pos m + min (vnorm (disp m)) temp • ((vnorm (disp m))⁻¹ • disp m)
        else pos m := by
  unfold apply_displacements
  rw [foldl_move_apply temp disp (List.range n) (List.nodup_range n) pos m]
  simp [List.mem_range]

lemma simulate_temp (k : ℝ) (n : ℕ) (edges : List (ℕ × ℕ × ℝ)) :
    ∀ (t : ℕ) (s : (ℕ → V3) × ℝ),
      (simulate k n edges t s).2 = s.2 * 0.98 ^ t := by
  intro t
  induction t with
  | zero => intro s; simp [simulate]
  | succ t ih =>
    intro s
    rw [simulate, ih]
    ring

/-- C3: in a step, a node whose accumulated displacement has positive
length `len` moves by exactly `(displacement/len) * min(len, temperature)`,
a node with `len = 0` does not move, and no node moves farther than the
current temperature; the temperature is multiplied by `0.98` after every
step unconditionally, so after `t` steps it is `10 * 0.98 ^ t`, which is
strictly positive. -/
theorem step_capped_and_cooling (k temp : ℝ) (n : ℕ)
    (edges : List (ℕ × ℕ × ℝ)) (pos : ℕ → V3) (htemp : 0 ≤ temp) :
    (∀ m, m < n →
      (0 < vnorm (compute_displacements k pos n edges m) →
        step_once k temp n edges pos m
          = pos m
            + min (vnorm (compute_displacements k pos n edges m)) temp
              • ((vnorm (compute_displacements k pos n edges m))⁻¹
                • compute_displacements k pos n edges m))
      ∧ (vnorm (compute_displacements k pos n edges m) = 0 →
          step_once k temp n edges pos m = pos m)
      ∧ vnorm (step_once k temp n edges pos m - pos m) ≤ temp)
    ∧ (∀ (t : ℕ) (s : (ℕ → V3) × ℝ),
        (simulate k n edges t s).2 = s.2 * 0.98 ^ t)
    ∧ (∀ (t : ℕ) (p0 : ℕ → V3),
        (simulate k n edges t (p0, 10)).2 = 10 * 0.98 ^ t
          ∧ 0 < (simulate k n edges t (p0, 10)).2) := by
  refine ⟨?_, simulate_temp k n edges, ?_⟩
  · intro m hm
    have hstep : step_once k temp n edges pos m
        = if m < n ∧ 0 < vnorm (compute_displacements k pos n edges m)
          then pos m
            + min (vnorm (compute_displacements k pos n edges m)) temp
              • ((vnorm (compute_displacements k pos n edges m))⁻¹
                • compute_displacements k pos n edges m)
          else pos m :=
      apply_displacements_apply n temp _ pos m
    refine ⟨?_, ?_, ?_⟩
    · intro hlen
      rw [hstep, if_pos ⟨hm, hlen⟩]
    · intro hlen
      rw [hstep, if_neg (by simp [hlen])]
    · by_cases hlen : 0 < vnorm (compute_displacements k pos n edges m)
      · rw [hstep, if_pos ⟨hm, hlen⟩, add_sub_cancel_left, vnorm_smul,
          vnorm_smul, abs_inv, abs_of_pos hlen,
          inv_mul_cancel₀ (ne_of_gt hlen), mul_one,
          abs_of_nonneg (le_min (le_of_lt hlen) htemp)]
        exact min_le_right _ _
      · rw [hstep, if_neg (by simp [hlen]), sub_self, vnorm_zero]
        exact htemp
  · intro t p0
    have h := simulate_temp k n edges t (p0, 10)
    constructor
    · rw [h]
    · rw [h]
      positivity

/-- Witness for `step_capped_and_cooling`: its hypothesis `0 ≤ temp` holds
at the concrete temperature `1`. -/
theorem step_capped_and_cooling_witness :
    (0 : ℝ) ≤ 1
    ∧ (∀ (t : ℕ) (p0 : ℕ → V3),
        (simulate 1 0 [] t (p0, 10)).2 = 10 * 0.98 ^ t
          ∧ 0 < (simulate 1 0 [] t (p0, 10)).2) :=
  ⟨by norm_num,
    (step_capped_and_cooling 1 1 0 [] (fun _ => 0) (by norm_num)).2.2⟩

/-! ### C4, C5, C9: degenerate graphs and configuration handling -/

lemma compute_displacements_single (k : ℝ) (pos : ℕ → V3) (m : ℕ) :
    compute_displacements k pos 1 [] m = 0 := by
  have h : pair_list 1 = [] := rfl
  rw [compute_displacements_eq, h]
  simp

lemma step_once_single (k temp : ℝ) (pos : ℕ → V3) :
    step_once k temp 1 [] pos = pos := by
  funext m
  unfold step_once
  rw [apply_displacements_apply]
  simp [compute_displacements_single, vnorm_zero]

lemma simulate_single (k : ℝ) (p : ℕ → V3) :
    ∀ (t : ℕ) (T : ℝ), (simulate k 1 [] t (p, T)).1 = p := by
  intro t
  induction t with
  | zero => intro T; rfl
  | succ t ih =>
    intro T
    rw [simulate, step_once_single]
    exact ih _

/-- With one node and no edges, the engine returns the initial (random)
position array unchanged: the force loop produces zero displacement every
iteration, so the node never moves. -/
lemma force_directed_single (id : String) (it : ℤ) (p : ℕ → V3) :
    force_directed_3d [id] [] it p = some p := by
  unfold force_directed_3d
  rw [if_neg (by simp), show sim_edges [id] [] = [] from rfl]
  simp [simulate_single]

/-- C4 counterexample: a single-node graph whose (random) initial position
is `(5, 0, 0)` ends, after normalization, at `(15, 0, 0)` — not `(0,0,0)`
as the claim states. -/
theorem single_node_counterexample :
    force_directed_3d ["a"] [] 500 (fun _ ax => if ax = 0 then (5 : ℝ) else 0)
        = some (fun _ ax => if ax = 0 then (5 : ℝ) else 0)
      ∧ normalize_positions (fun _ ax => if ax = 0 then (5 : ℝ) else 0) 1 15 0 0
          = 15
      ∧ (15 : ℝ) ≠ 0 := by
  have hmc : max_coord (fun _ ax => if ax = 0 then (5 : ℝ) else 0) 1 = 5 := by
    unfold max_coord abs_coords
    rw [show List.range 1 = [0] from rfl]
    norm_num [show (1 : Fin 3) ≠ 0 by decide, show (2 : Fin 3) ≠ 0 by decide,
      max_def]
  refine ⟨force_directed_single "a" 500 _, ?_, by norm_num⟩
  unfold normalize_positions
  rw [hmc, if_pos (by norm_num)]
  norm_num

/-- C4 amended: with one node and no edges the node never moves, so the
engine returns the initial random positions; normalization leaves them
unchanged when the maximal absolute coordinate is zero (in particular a
zero initial vector stays `(0,0,0)`) and otherwise rescales them by
`15 / max_coord`. -/
theorem single_node_run (id : String) (it : ℤ) (p : ℕ → V3) :
    force_directed_3d [id] [] it p = some p
      ∧ (max_coord p 1 = 0 → normalize_positions p 1 15 = p)
      ∧ (0 < max_coord p 1 →
          ∀ i, normalize_positions p 1 15 i = (15 / max_coord p 1) • p i) := by
  refine ⟨force_directed_single id it p, ?_, ?_⟩
  · intro h
    unfold normalize_positions
    rw [if_neg (by simp [h])]
  · intro h i
    unfold normalize_positions
    rw [if_pos h]

/-- Witness for `single_node_run` at the zero initial position: the node
stays at `(0,0,0)`. -/
theorem single_node_run_witness :
    force_directed_3d ["a"] [] 500 (fun _ => (0 : V3)) = some (fun _ => 0)
      ∧ normalize_positions (fun _ => (0 : V3)) 1 15 = fun _ => 0 := by
  have hmc : max_coord (fun _ => (0 : V3)) 1 = 0 := by
    unfold max_coord abs_coords
    rw [show List.range 1 = [0] from rfl]
    norm_num [max_def]
  have h := single_node_run "a" 500 (fun _ => 0)
  exact ⟨h.1, h.2.1 hmc⟩

/-- C5 counterexample: on the empty graph the engine does not return an
empty position array — it aborts (`ZeroDivisionError` from `area / n`),
modelled as `none`. -/
theorem empty_graph_counterexample :
    force_directed_3d [] [] 500 (fun _ => 0) = none := rfl

/-- C5 amended: for zero nodes the engine always raises `ZeroDivisionError`
while computing `k = sqrt(area / n)`; it never returns a result. -/
theorem empty_graph_raises (edges : List Edge) (it : ℤ) (p : ℕ → V3) :
    force_directed_3d [] edges it p = none := rfl

/-- C9 counterexample: a non-positive iteration count (`-5`) is accepted
without any configuration error — the engine runs and returns the initial
positions. -/
theorem invalid_config_counterexample :
    (-5 : ℤ) ≤ 0
      ∧ force_directed_3d ["a"] [] (-5) (fun _ => 0)
          = some (fun _ => 0) := by
  refine ⟨by decide, ?_⟩
  unfold force_directed_3d
  rw [if_neg (by simp), show ((-5 : ℤ)).toNat = 0 from rfl]
  rfl

/-- C9 amended: the engine performs no configuration validation — any
non-positive iteration count is silently accepted, the simulation loop
simply runs zero times and the initial positions come back; the area and
cooling factor are hard-coded constants (`100.0`, `0.98`), not inputs that
could be validated. -/
theorem no_config_validation (ids : List String) (edges : List Edge)
    (it : ℤ) (p : ℕ → V3) (hit : it ≤ 0) (hids : ids ≠ []) :
    force_directed_3d ids edges it p = some p := by
  unfold force_directed_3d
  rw [if_neg (by simp [hids]), Int.toNat_of_nonpos hit]
  rfl

/-- Witness for `no_config_validation` at the concrete invalid
configuration `iterations = -5`. -/
theorem no_config_validation_witness :
    (-5 : ℤ) ≤ 0 ∧ (["a"] : List String) ≠ []
      ∧ force_directed_3d ["a"] [⟨"a", "a", 1⟩] (-5) (fun _ => 0)
          = some (fun _ => 0) :=
  ⟨by decide, by simp,
    no_config_validation ["a"] [⟨"a", "a", 1⟩] (-5) (fun _ => 0)
      (by decide) (by simp)⟩

/-! ### C6: unresolved edges are silently excluded -/

lemma foldl_insert_lookup_eq_none (x : String) :
    ∀ (l : List (ℕ × String)) (m0 : String → Option ℕ),
      ((l.foldl (fun m p => fun y => if y = p.2 then some p.1 else m y) m0) x
          = none
        ↔ x ∉ l.map Prod.snd ∧ m0 x = none) := by
  intro l
  induction l with
  | nil => intro m0; simp
  | cons p t ih =>
    intro m0
    simp only [List.foldl_cons, List.map_cons, List.mem_cons]
    rw [ih]
    by_cases hx : x = p.2
    · simp [hx]
    · simp [hx]

/-- An id resolves to no index exactly when it is not the id of any input
node. -/
lemma id_to_idx_eq_none {ids : List String} {x : String} :
    id_to_idx ids x = none ↔ x ∉ ids := by
  unfold id_to_idx
  rw [foldl_insert_lookup_eq_none x ids.enum (fun _ => none),
    List.enum_map_snd]
  simp

lemma resolve_edges_drop (idx : String → Option ℕ) (l1 l2 : List Edge)
    (e : Edge) (he : idx e.source = none ∨ idx e.target = none) :
    resolve_edges idx (l1 ++ e :: l2) = resolve_edges idx (l1 ++ l2) := by
  unfold resolve_edges
  rw [List.filterMap_append, List.filterMap_append, List.filterMap_cons]
  rcases he with h | h
  · simp [h]
  · cases hs : idx e.source <;> simp [h, hs]

/-- Retention is exactly "both ids resolve": the resolved list is the
resolvable edges, in input order, mapped to their index/weight triples. -/
lemma resolve_edges_eq_filter (idx : String → Option ℕ)
    (edges : List Edge) :
    resolve_edges idx edges
      = (edges.filter fun e =>
            (idx e.source).isSome && (idx e.target).isSome).map
          fun e => ((idx e.source).getD 0, (idx e.target).getD 0, e.weight) := by
  induction edges with
  | nil => rfl
  | cons e t ih =>
    unfold resolve_edges at ih ⊢
    rw [List.filterMap_cons, List.filter_cons]
    cases hs : idx e.source <;> cases ht : idx e.target <;>
      simp [hs, ht, ih]

/-- C6: an edge whose source or target id is not the id of any input node
is silently excluded during resolution — it does not change the simulation
edge list nor any position the engine computes — and exactly the edges
whose two ids both resolve are retained as index/weight triples. -/
theorem unresolved_edges_dropped (ids : List String) (l1 l2 : List Edge)
    (e : Edge) (he : e.source ∉ ids ∨ e.target ∉ ids) :
    sim_edges ids (l1 ++ e :: l2) = sim_edges ids (l1 ++ l2)
      ∧ (∀ (it : ℤ) (p : ℕ → V3),
          force_directed_3d ids (l1 ++ e :: l2) it p
            = force_directed_3d ids (l1 ++ l2) it p)
      ∧ (∀ (edges : List Edge),
          resolve_edges (id_to_idx ids) edges
            = (edges.filter fun e' =>
                  (id_to_idx ids e'.source).isSome
                    && (id_to_idx ids e'.target).isSome).map
                fun e' => ((id_to_idx ids e'.source).getD 0,
                  (id_to_idx ids e'.target).getD 0, e'.weight)) := by
  have hdrop : resolve_edges (id_to_idx ids) (l1 ++ e :: l2)
      = resolve_edges (id_to_idx ids) (l1 ++ l2) := by
    refine resolve_edges_drop _ l1 l2 e ?_
    rcases he with h | h
    · exact Or.inl (id_to_idx_eq_none.mpr h)
    · exact Or.inr (id_to_idx_eq_none.mpr h)
  have hsim : sim_edges ids (l1 ++ e :: l2) = sim_edges ids (l1 ++ l2) := by
    unfold sim_edges
    rw [hdrop]
  refine ⟨hsim, fun it p => ?_, resolve_edges_eq_filter _⟩
  unfold force_directed_3d
  rw [hsim]

/-- Witness for `unresolved_edges_dropped`: the concrete ghost edge
`(A, "ghost", 5)` over nodes `[A, B]` is dropped. -/
theorem unresolved_edges_dropped_witness :
    (("ghost" : String) ∉ (["a", "b"] : List String))
      ∧ sim_edges ["a", "b"] [⟨"a", "ghost", 5⟩] = sim_edges ["a", "b"] [] :=
  ⟨by simp,
    (unresolved_edges_dropped ["a", "b"] [] [] ⟨"a", "ghost", 5⟩
      (Or.inr (by simp))).1⟩

/-! ### C7: weight normalization -/

lemma le_foldl_max_init : ∀ (t : List ℝ) (a : ℝ), a ≤ t.foldl max a := by
  intro t
  induction t with
  | nil => intro a; simp
  | cons b t ih =>
    intro a
    simp only [List.foldl_cons]
    exact le_trans (le_max_left a b) (ih (max a b))

lemma mem_le_foldl_max : ∀ (t : List ℝ) (a : ℝ) {x : ℝ}, x ∈ t →
    x ≤ t.foldl max a := by
  intro t
  induction t with
  | nil => intro a x hx; cases hx
  | cons b t ih =>
    intro a x hx
    simp only [List.foldl_cons]
    rcases List.mem_cons.mp hx with h | h
    · exact le_trans (h ▸ le_max_right a b) (le_foldl_max_init t (max a b))
    · exact ih (max a b) h

lemma foldl_max_of_all_eq : ∀ (t : List ℝ) (a : ℝ), (∀ x ∈ t, x = a) →
    t.foldl max a = a := by
  intro t
  induction t with
  | nil => intro a _; rfl
  | cons b t ih =>
    intro a h
    simp only [List.foldl_cons]
    rw [h b (List.mem_cons_self _ _), max_self]
    exact ih a fun x hx => h x (List.mem_cons_of_mem _ hx)

lemma mem_le_max_weight {ws : List ℝ} {w : ℝ} (hw : w ∈ ws) :
    w ≤ max_weight ws := by
  cases ws with
  | nil => cases hw
  | cons a t =>
    unfold max_weight
    rcases List.mem_cons.mp hw with h | h
    · exact h ▸ le_foldl_max_init t a
    · exact mem_le_foldl_max t a h

/-- A retained triple's weight is the raw weight of some input edge. -/
lemma resolve_edges_weight_mem {idx : String → Option ℕ}
    {edges : List Edge} {t : ℕ × ℕ × ℝ}
    (ht : t ∈ resolve_edges idx edges) : ∃ e ∈ edges, t.2.2 = e.weight := by
  rcases List.mem_filterMap.mp ht with ⟨e, he, hfe⟩
  refine ⟨e, he, ?_⟩
  cases hs : idx e.source <;> cases hts : idx e.target <;>
    rw [hs, hts] at hfe <;> simp at hfe
  rw [← hfe]

/-- C7: the simulation edge list carries `raw_weight / max_weight` per
retained edge, the divisor defaults to `1` on an empty retained list and is
strictly positive whenever retained edges exist (given positive input
weights), every normalized weight lies in `[0, 1]`, and equal raw weights
all normalize to `1`. -/
theorem weight_normalization_spec (ids : List String) (edges : List Edge)
    (hw : ∀ e ∈ edges, 0 < e.weight) :
    sim_edges ids edges
        = (resolve_edges (id_to_idx ids) edges).map
            (fun e => (e.1, e.2.1, e.2.2
              / max_weight
                  ((resolve_edges (id_to_idx ids) edges).map
                    fun t => t.2.2)))
      ∧ max_weight ([] : List ℝ) = 1
      ∧ (resolve_edges (id_to_idx ids) edges ≠ [] →
          0 < max_weight
            ((resolve_edges (id_to_idx ids) edges).map fun t => t.2.2))
      ∧ (∀ w ∈ (resolve_edges (id_to_idx ids) edges).map fun t => t.2.2,
          0 ≤ w / max_weight
              ((resolve_edges (id_to_idx ids) edges).map fun t => t.2.2)
            ∧ w / max_weight
                ((resolve_edges (id_to_idx ids) edges).map fun t => t.2.2)
              ≤ 1)
      ∧ ((∀ w ∈ (resolve_edges (id_to_idx ids) edges).map fun t => t.2.2,
            ∀ w' ∈ (resolve_edges (id_to_idx ids) edges).map fun t => t.2.2,
            w = w') →
          ∀ w ∈ (resolve_edges (id_to_idx ids) edges).map fun t => t.2.2,
            w / max_weight
                ((resolve_edges (id_to_idx ids) edges).map fun t => t.2.2)
              = 1) := by
  have hpos : ∀ w ∈ (resolve_edges (id_to_idx ids) edges).map
      fun t => t.2.2, 0 < w := by
    intro w hwmem
    rcases List.mem_map.mp hwmem with ⟨t, ht, rfl⟩
    rcases resolve_edges_weight_mem ht with ⟨e, he, heq⟩
    exact heq ▸ hw e he
  have hmwpos : resolve_edges (id_to_idx ids) edges ≠ [] →
      0 < max_weight
        ((resolve_edges (id_to_idx ids) edges).map fun t => t.2.2) := by
    intro hne
    cases hr : resolve_edges (id_to_idx ids) edges with
    | nil => exact absurd hr hne
    | cons a t =>
      have ha : 0 < a.2.2 := by
        refine hpos a.2.2 ?_
        rw [hr]
        exact List.mem_map.mpr ⟨a, List.mem_cons_self _ _, rfl⟩
      calc (0 : ℝ) < a.2.2 := ha
        _ ≤ max_weight ((a :: t).map fun t => t.2.2) :=
            mem_le_max_weight
              (List.mem_map.mpr ⟨a, List.mem_cons_self _ _, rfl⟩)
  refine ⟨rfl, rfl, hmwpos, ?_, ?_⟩
  · intro w hwmem
    have hne : resolve_edges (id_to_idx ids) edges ≠ [] := by
      intro h0
      rw [h0] at hwmem
      cases hwmem
    have hmw := hmwpos hne
    refine ⟨div_nonneg (le_of_lt (hpos w hwmem)) (le_of_lt hmw), ?_⟩
    exact (div_le_one hmw).mpr (mem_le_max_weight hwmem)
  · intro hall w hwmem
    have hne : resolve_edges (id_to_idx ids) edges ≠ [] := by
      intro h0
      rw [h0] at hwmem
      cases hwmem
    have hmww : max_weight
        ((resolve_edges (id_to_idx ids) edges).map fun t => t.2.2) = w := by
      cases hws : (resolve_edges (id_to_idx ids) edges).map
          fun t => t.2.2 with
      | nil =>
        rw [hws] at hwmem
        cases hwmem
      | cons a t =>
        unfold max_weight
        have haw : a = w :=
          hall a (hws ▸ List.mem_cons_self _ _) w hwmem
        rw [haw]
        refine foldl_max_of_all_eq t w fun x hx => ?_
        exact hall x (hws ▸ List.mem_cons_of_mem _ hx) w hwmem
    rw [hmww, div_self (ne_of_gt (hpos w hwmem))]

/-- Witness for `weight_normalization_spec`: the positivity hypothesis
holds for the concrete edge `(a, b, 2)`. -/
theorem weight_normalization_spec_witness :
    (∀ e ∈ [(⟨"a", "b", 2⟩ : Edge)], 0 < e.weight)
      ∧ max_weight ([] : List ℝ) = 1 :=
  ⟨by intro e he; simp at he; rw [he]; norm_num,
    (weight_normalization_spec ["a", "b"] [⟨"a", "b", 2⟩]
      (by intro e he; simp at he; rw [he]; norm_num)).2.1⟩

/-! ### C10: self-loop edges -/

lemma att_step_self_loop (k : ℝ) (pos disp : ℕ → V3) (i : ℕ) (w : ℝ) :
    att_step k pos disp (i, i, w) = disp := by
  unfold att_step
  simp [sub_self, vnorm_zero]

lemma compute_displacements_self_loop (k : ℝ) (pos : ℕ → V3) (n : ℕ)
    (l1 l2 : List (ℕ × ℕ × ℝ)) (i : ℕ) (w : ℝ) :
    compute_displacements k pos n (l1 ++ (i, i, w) :: l2)
      = compute_displacements k pos n (l1 ++ l2) := by
  unfold compute_displacements
  rw [List.foldl_append, List.foldl_append, List.foldl_cons,
    att_step_self_loop]

/-- C10: a self-loop edge is retained by id resolution (its weight enters
the list over which `max_weight` is computed), but its attraction step is a
no-op (`distance == 0`), so its presence in the simulation edge list never
changes any displacement or any position. -/
theorem self_loop_spec :
    (∀ (ids : List String) (edges : List Edge) (e : Edge) (i : ℕ),
        e ∈ edges → id_to_idx ids e.source = some i →
        e.target = e.source →
        (i, i, e.weight) ∈ resolve_edges (id_to_idx ids) edges
          ∧ e.weight ∈ (resolve_edges (id_to_idx ids) edges).map
              fun t => t.2.2)
      ∧ (∀ (k : ℝ) (pos disp : ℕ → V3) (i : ℕ) (w : ℝ),
          att_step k pos disp (i, i, w) = disp)
      ∧ (∀ (k temp : ℝ) (n : ℕ) (l1 l2 : List (ℕ × ℕ × ℝ)) (i : ℕ) (w : ℝ)
          (pos : ℕ → V3),
          step_once k temp n (l1 ++ (i, i, w) :: l2) pos
            = step_once k temp n (l1 ++ l2) pos) := by
  refine ⟨?_, att_step_self_loop, ?_⟩
  · intro ids edges e i he hsrc htgt
    have hmem : (i, i, e.weight) ∈ resolve_edges (id_to_idx ids) edges := by
      refine List.mem_filterMap.mpr ⟨e, he, ?_⟩
      rw [htgt, hsrc]
    exact ⟨hmem, List.mem_map.mpr ⟨(i, i, e.weight), hmem, rfl⟩⟩
  · intro k temp n l1 l2 i w pos
    unfold step_once
    rw [compute_displacements_self_loop]

/-- Witness for `self_loop_spec`: the concrete self-loop `(a, a, 1)` over
the single node `a` is retained with both endpoints resolved to index 0. -/
theorem self_loop_spec_witness :
    ((⟨"a", "a", 1⟩ : Edge) ∈ [(⟨"a", "a", 1⟩ : Edge)])
      ∧ id_to_idx ["a"] "a" = some 0
      ∧ (0, 0, (1 : ℝ)) ∈ resolve_edges (id_to_idx ["a"]) [⟨"a", "a", 1⟩] :=
  ⟨List.mem_cons_self _ _, rfl,
    (self_loop_spec.1 ["a"] [⟨"a", "a", 1⟩] ⟨"a", "a", 1⟩ 0
      (List.mem_cons_self _ _) rfl rfl).1⟩

/-! ### C8: no division by an exactly-zero divisor is ever executed

The `_checked` definitions mirror the iteration loop statement by
statement, but perform every scalar and vector division through `sdiv` /
`vdivs`, which return `none` when the divisor is exactly zero.  Proving the
checked run equal to `some` of the plain run shows that every division the
loop executes has a nonzero divisor, so every position coordinate stays a
well-defined real number after every completed iteration. -/

/-- Division that aborts on a zero divisor (a float `ZeroDivisionError` /
NaN site). -/
def sdiv (a b : ℝ) : Option ℝ := if b = 0 then none else some (a / b)

/-- Vector-by-scalar division that aborts on a zero divisor. -/
def vdivs (v : V3) (s : ℝ) : Option V3 :=
  if s = 0 then none else some (s⁻¹ • v)

/-- `rep_step` with checked divisions. -/
def rep_step_checked (k : ℝ) (pos : ℕ → V3) (disp : ℕ → V3) (i j : ℕ) :
    Option (ℕ → V3) :=
  let delta := pos i - pos j
  let distance := vnorm delta
  if distance > 0 then do
    let force ← sdiv (k * k) distance
    let direction ← vdivs delta distance
    pure (apply_pair_force disp i j (force • direction))
  else pure disp

/-- `att_step` with checked divisions (including the division by `k`). -/
def att_step_checked (k : ℝ) (pos : ℕ → V3) (disp : ℕ → V3)
    (e : ℕ × ℕ × ℝ) : Option (ℕ → V3) :=
  let delta := pos e.2.1 - pos e.1
  let distance := vnorm delta
  if distance > 0 then do
    let base ← sdiv (distance * distance) k
    let direction ← vdivs delta distance
    pure (apply_pair_force disp e.1 e.2.1
      ((base * (0.5 + 0.5 * e.2.2)) • direction))
  else pure disp

/-- `move_node` with a checked division by the displacement length. -/
def move_node_checked (temp : ℝ) (disp : ℕ → V3) (pos : ℕ → V3) (i : ℕ) :
    Option (ℕ → V3) :=
  let len := vnorm (disp i)
  if len > 0 then do
    let dir ← vdivs (disp i) len
    pure (Function.update pos i (pos i + min len temp • dir))
  else pure pos

/-- One full iteration with checked divisions. -/
def step_once_checked (k temp : ℝ) (n : ℕ) (edges : List (ℕ × ℕ × ℝ))
    (pos : ℕ → V3) : Option (ℕ → V3) := do
  let rep ← (pair_list n).foldlM
    (fun d p => rep_step_checked k pos d p.1 p.2) (fun _ => (0 : V3))
  let disp ← edges.foldlM (fun d e => att_step_checked k pos d e) rep
  (List.range n).foldlM (move_node_checked temp disp) pos

/-- The simulation loop with checked divisions. -/
def simulate_checked (k : ℝ) (n : ℕ) (edges : List (ℕ × ℕ × ℝ)) :
    ℕ → (ℕ → V3) × ℝ → Option ((ℕ → V3) × ℝ)
  | 0, s => some s
  | t + 1, s => do
      let p ← step_once_checked k s.2 n edges s.1
      simulate_checked k n edges t (p, s.2 * 0.98)

lemma rep_step_checked_eq (k : ℝ) (pos : ℕ → V3) (disp : ℕ → V3)
    (i j : ℕ) :
    rep_step_checked k pos disp i j = some (rep_step k pos disp i j) := by
  unfold rep_step_checked rep_step
  by_cases h : vnorm (pos i - pos j) > 0
  · rw [if_pos h, if_pos h]
    simp [sdiv, vdivs, ne_of_gt h]
  · rw [if_neg h, if_neg h]
    rfl

lemma att_step_checked_eq (k : ℝ) (hk : k ≠ 0) (pos : ℕ → V3)
    (disp : ℕ → V3) (e : ℕ × ℕ × ℝ) :
    att_step_checked k pos disp e = some (att_step k pos disp e) := by
  unfold att_step_checked att_step
  by_cases h : vnorm (pos e.2.1 - pos e.1) > 0
  · rw [if_pos h, if_pos h]
    simp [sdiv, vdivs, ne_of_gt h, hk]
  · rw [if_neg h, if_neg h]
    rfl

lemma move_node_checked_eq (temp : ℝ) (disp pos : ℕ → V3) (i : ℕ) :
    move_node_checked temp disp pos i = some (move_node temp disp pos i) := by
  unfold move_node_checked move_node
  by_cases h : vnorm (disp i) > 0
  · rw [if_pos h, if_pos h]
    simp [vdivs, ne_of_gt h]
  · rw [if_neg h, if_neg h]
    rfl

lemma foldlM_of_eq_some {α β : Type} {f : β → α → Option β} {g : β → α → β}
    (hfg : ∀ b a, f b a = some (g b a)) :
    ∀ (l : List α) (b : β), l.foldlM f b = some (l.foldl g b) := by
  intro l
  induction l with
  | nil => intro b; rfl
  | cons a t ih =>
    intro b
    rw [List.foldlM_cons, hfg b a]
    simp only [Option.bind_eq_bind, Option.some_bind]
    rw [ih (g b a), List.foldl_cons]

lemma step_once_checked_eq (k temp : ℝ) (hk : k ≠ 0) (n : ℕ)
    (edges : List (ℕ × ℕ × ℝ)) (pos : ℕ → V3) :
    step_once_checked k temp n edges pos
      = some (step_once k temp n edges pos) := by
  unfold step_once_checked step_once apply_displacements
    compute_displacements
  rw [foldlM_of_eq_some (fun d (p : ℕ × ℕ) => rep_step_checked_eq k pos d p.1 p.2)]
  simp only [Option.bind_eq_bind, Option.some_bind]
  rw [foldlM_of_eq_some (fun d e => att_step_checked_eq k hk pos d e)]
  simp only [Option.bind_eq_bind, Option.some_bind]
  rw [foldlM_of_eq_some (move_node_checked_eq temp _)]

lemma simulate_checked_eq (k : ℝ) (hk : k ≠ 0) (n : ℕ)
    (edges : List (ℕ × ℕ × ℝ)) :
    ∀ (t : ℕ) (s : (ℕ → V3) × ℝ),
      simulate_checked k n edges t s = some (simulate k n edges t s) := by
  intro t
  induction t with
  | zero => intro s; rfl
  | succ t ih =>
    intro s
    rw [simulate_checked, simulate, step_once_checked_eq k s.2 hk n edges s.1]
    simp only [Option.bind_eq_bind, Option.some_bind]
    exact ih _

/-- C8: for every nonempty graph the constant `k = sqrt(area/n)` is
strictly positive, every division executed by the iteration loop (the two
force magnitudes, the two direction vectors, and the displacement
normalization) has a strictly positive divisor — running the loop with
every division site instrumented to abort on a zero divisor returns
exactly the plain run — and the engine completes with a position array of
well-defined real vectors. -/
theorem no_division_by_zero (ids : List String) (edges : List Edge)
    (it : ℤ) (p : ℕ → V3) (hids : ids ≠ []) :
    0 < Real.sqrt (100.0 / (ids.length : ℝ))
      ∧ (∀ (t : ℕ) (s : (ℕ → V3) × ℝ),
          simulate_checked (Real.sqrt (100.0 / (ids.length : ℝ)))
              ids.length (sim_edges ids edges) t s
            = some (simulate (Real.sqrt (100.0 / (ids.length : ℝ)))
              ids.length (sim_edges ids edges) t s))
      ∧ ∃ q, force_directed_3d ids edges it p = some q := by
  have hn : 0 < (ids.length : ℝ) := by
    have := List.length_pos.mpr hids
    exact_mod_cast this
  have hk : 0 < Real.sqrt (100.0 / (ids.length : ℝ)) :=
    Real.sqrt_pos.mpr (div_pos (by norm_num) hn)
  refine ⟨hk, simulate_checked_eq _ (ne_of_gt hk) _ _, ?_⟩
  refine ⟨(simulate (Real.sqrt (100.0 / (ids.length : ℝ))) ids.length
    (sim_edges ids edges) it.toNat (p, 10.0)).1, ?_⟩
  unfold force_directed_3d
  rw [if_neg (by simp [hids])]

/-- Witness for `no_division_by_zero` at the concrete one-node graph. -/
theorem no_division_by_zero_witness :
    ((["a"] : List String) ≠ [])
      ∧ 0 < Real.sqrt (100.0 / ((["a"] : List String).length : ℝ)) :=
  ⟨by simp, (no_division_by_zero ["a"] [] 500 (fun _ => 0) (by simp)).1⟩

end CalcPositions

end
